import Mathlib

/-!
A shallow embedding of the remote random-access HTTP reader core
(`src/http.rs` of the `pravaha` repository), together with proofs about
its retry policy, LRU range cache, range buffer and file-session read
path.

Modelling conventions:
* `u64`/`usize` values are modelled as `Nat`.  The source uses
  `saturating_sub`, which coincides with truncated `Nat` subtraction,
  and `saturating_add`, modelled as `Nat` addition (the claims under
  study are not about the `2^64` saturation boundary).
* Byte payloads (`Arc<[u8]>`, `Vec<u8>`) are `List Nat`.
* The `AHashMap` of the cache is an association list whose keys are
  kept unique by the cache operations themselves; `map_get`,
  `map_remove` model `HashMap::get` / `HashMap::remove`, and
  `HashMap::insert` of a key just removed is a cons.
* The transport, the prefetch receiver and the content-length probe are
  oracles carried by a `World` structure; fetch results are indexed by
  a call counter so that successive calls may differ, and the counters
  also record how many transport calls were issued.
* Fallible Rust functions returning `Result<T>` become
  `Except FsError T`.
-/

/-- `FsError` from `src/core.rs`: the error taxonomy of the library.
`Io` carries the rendered `io::Error` message. -/
inductive FsError where
  | Network : String → FsError
  | Protocol : String → FsError
  | Io : String → FsError
  | FileClosed : FsError
  | UnsupportedProtocol : String → FsError
deriving DecidableEq

/-- Network-class errors are the only retryable ones. -/
def FsError.is_network : FsError → Bool
  | .Network _ => true
  | _ => false

/-- The retry loop shared by `get_content_length_with_retry`,
`get_range_with_retry` and the prefetch worker in `src/http.rs`
(lines 241-285, 363-379).  `t a` is the outcome of the transport call
made on attempt index `a` (0-based).  `remaining` is
`retry_max_attempts - attempt`, so the Rust guard
`attempt >= retry_max_attempts` is `remaining = 0`; the loop in the
source has no other exit, hence this structural recursion is the loop
verbatim.  The second component of the result is the total number of
transport calls made (the sleeps between attempts are not modelled). -/
def retry_loop (t : Nat → Except FsError α) : Nat → Nat → Except FsError α × Nat
  | remaining, attempt =>
    match t attempt with
    | .ok v => (.ok v, attempt + 1)
    | .error (FsError.Network e) =>
      match remaining with
      | 0 => (.error (FsError.Network e), attempt + 1)
      | Nat.succ r => retry_loop t r (attempt + 1)
    | .error e => (.error e, attempt + 1)

/-- `HttpFile::get_range_with_retry` (src/http.rs:264-285): the
retrying wrapper around `transport.get_range(url, start, end)`.  The
transport oracle takes the url, the requested inclusive range and the
attempt index, and returns the response payload. -/
def get_range_with_retry (transport : String → Nat → Nat → Nat → Except FsError (List Nat))
    (url : String) (range_start range_stop retry_max_attempts : Nat) :
    Except FsError (List Nat) × Nat :=
  retry_loop (fun a => transport url range_start range_stop a) retry_max_attempts 0

/-- `CacheKey` (src/http.rs:59-64): `(url, start, end)` of the
requested inclusive range.  The Rust field `end` is a Lean keyword and
is called `stop` here. -/
structure CacheKey where
  url : String
  start : Nat
  stop : Nat
deriving DecidableEq

/-- `CacheEntry` (src/http.rs:66-70). -/
structure CacheEntry where
  data : List Nat
  size : Nat
deriving DecidableEq

/-- `HashMap::get` on the association-list model of the cache map. -/
def map_get : List (CacheKey × CacheEntry) → CacheKey → Option CacheEntry
  | [], _ => none
  | (k', e) :: rest, k => if k' = k then some e else map_get rest k

/-- `HashMap::remove` on the association-list model: removes the (at
most one, by the key-uniqueness invariant) entry with the given key. -/
def map_remove : List (CacheKey × CacheEntry) → CacheKey → List (CacheKey × CacheEntry)
  | [], _ => []
  | (k', e) :: rest, k => if k' = k then rest else (k', e) :: map_remove rest k

/-- The keys of the cache map, in association-list order. -/
def map_keys (m : List (CacheKey × CacheEntry)) : List CacheKey := m.map Prod.fst

/-- The total size of the stored entries. -/
def sum_sizes (m : List (CacheKey × CacheEntry)) : Nat := (m.map (fun p => p.2.size)).sum

/-- `RangeCache` (src/http.rs:72-78).  The `VecDeque` order list is a
`List` whose head is the most-recently-used end (`push_front` is cons,
`pop_back` takes the last element). -/
structure RangeCache where
  map : List (CacheKey × CacheEntry)
  lru : List CacheKey
  max_entries : Nat
  max_bytes : Nat
  current_bytes : Nat
deriving DecidableEq

/-- `RangeCache::new` (src/http.rs:81-89). -/
def RangeCache.new (max_entries max_bytes : Nat) : RangeCache :=
  { map := [], lru := [], max_entries := max_entries, max_bytes := max_bytes,
    current_bytes := 0 }

/-- `VecDeque::remove` at the position found by `iter().position(|k| k == key)`,
i.e. removal of the first occurrence: `RangeCache::remove_lru`
(src/http.rs:129-133). -/
def lru_remove : List CacheKey → CacheKey → List CacheKey
  | [], _ => []
  | k' :: rest, k => if k' = k then rest else k' :: lru_remove rest k

/-- One pass of the `while` loop of `RangeCache::evict_to_limits`
(src/http.rs:135-145), with an explicit iteration bound.  Each
iteration of the source loop pops one element from the back of `lru`
or breaks, so running it `lru.length` times reaches the state in which
the source loop's `pop_back` would return `None` and break; the fuel
therefore never cuts the loop short (see `RangeCache.evict_to_limits`). -/
def evict_go : Nat → RangeCache → RangeCache
  | 0, c => c
  | fuel + 1, c =>
    if c.max_entries < c.map.length ∨ c.max_bytes < c.current_bytes then
      match c.lru.getLast? with
      | none => c
      | some key =>
        match map_get c.map key with
        | some entry =>
          evict_go fuel { c with map := map_remove c.map key,
                                 current_bytes := c.current_bytes - entry.size,
                                 lru := c.lru.dropLast }
        | none => evict_go fuel { c with lru := c.lru.dropLast }
    else c

/-- `RangeCache::evict_to_limits` (src/http.rs:135-145): pop from the
least-recently-used end until both bounds hold (or the order list is
exhausted). -/
def RangeCache.evict_to_limits (c : RangeCache) : RangeCache :=
  evict_go c.lru.length c

/-- `RangeCache::get` (src/http.rs:91-99).  Returns the payload on a
hit and the cache with the key moved to the most-recently-used
position (`touch_lru`, src/http.rs:124-127); the interior mutation of
the Rust method becomes an explicitly returned cache. -/
def RangeCache.get (c : RangeCache) (key : CacheKey) : Option (List Nat) × RangeCache :=
  if c.max_entries = 0 ∨ c.max_bytes = 0 then (none, c)
  else
    match map_get c.map key with
    | none => (none, c)
    | some entry => (some entry.data, { c with lru := key :: lru_remove c.lru key })

/-- `RangeCache::insert` (src/http.rs:101-122). -/
def RangeCache.insert (c : RangeCache) (key : CacheKey) (data : List Nat) : RangeCache :=
  if c.max_entries = 0 ∨ c.max_bytes = 0 then c
  else
    let size := data.length
    if c.max_bytes < size then c
    else
      let c1 : RangeCache :=
        match map_get c.map key with
        | some existing =>
          { c with current_bytes := c.current_bytes - existing.size,
                   map := map_remove c.map key,
                   lru := lru_remove c.lru key }
        | none => c
      RangeCache.evict_to_limits
        { c1 with current_bytes := c1.current_bytes + size,
                  map := (key, ⟨data, size⟩) :: c1.map,
                  lru := key :: c1.lru }

/-- A `get` or `insert` call against the shared cache (the two public
operations, src/http.rs:91-122). -/
inductive CacheOp where
  | get : CacheKey → CacheOp
  | insert : CacheKey → List Nat → CacheOp

/-- Apply one cache operation, discarding the `get` result. -/
def cache_apply (c : RangeCache) : CacheOp → RangeCache
  | .get k => (RangeCache.get c k).2
  | .insert k d => RangeCache.insert c k d

/-- Run a sequence of cache operations from a starting cache. -/
def cache_run (ops : List CacheOp) (c : RangeCache) : RangeCache :=
  ops.foldl cache_apply c

/-- Structural well-formedness of the cache: unique map keys, a
duplicate-free order list carrying exactly the map's keys, and a
byte counter equal to the sum of the stored sizes. -/
def cacheWF (c : RangeCache) : Prop :=
  (map_keys c.map).Nodup ∧ c.lru.Nodup ∧
  (∀ k, k ∈ c.lru ↔ k ∈ map_keys c.map) ∧
  c.current_bytes = sum_sizes c.map

/-- The dual bounds of the cache. -/
def cacheBounded (c : RangeCache) : Prop :=
  c.map.length ≤ c.max_entries ∧ c.current_bytes ≤ c.max_bytes

/-- The per-filesystem configuration fields that the read path consults
(`HttpConfig`, src/http.rs:19-31).  The `Duration` fields and the cache
bounds (held by the cache itself here) are not part of the model: the
claims under study never read them. -/
structure HttpConfig where
  chunk_size : Nat
  read_ahead : Bool
  read_ahead_trigger : Nat
  retry_max_attempts : Nat

/-- `RangeBuffer` (src/http.rs:148-152): the resident chunk
`(data, buffer_start, buffer_end)`. -/
structure RangeBuffer where
  data : List Nat
  buffer_start : Nat
  buffer_end : Nat
deriving DecidableEq

/-- `RangeBuffer::new` (src/http.rs:155-161), also the state produced
by `RangeBuffer::clear` (src/http.rs:186-190). -/
def RangeBuffer.new : RangeBuffer :=
  { data := [], buffer_start := 0, buffer_end := 0 }

/-- `RangeBuffer::set_data` (src/http.rs:163-167). -/
def RangeBuffer.set_data (_b : RangeBuffer) (data : List Nat) (file_start file_stop : Nat) :
    RangeBuffer :=
  { data := data, buffer_start := file_start, buffer_end := file_stop }

/-- `RangeBuffer::contains` (src/http.rs:169-171). -/
def RangeBuffer.contains (b : RangeBuffer) (file_offset : Nat) : Bool :=
  decide (b.buffer_start ≤ file_offset) && decide (file_offset < b.buffer_end)

/-- `RangeBuffer::read` (src/http.rs:173-184): the bytes copied into an
output slice of length `outLen`; the returned count of the source is
the length of this list. -/
def RangeBuffer.read (b : RangeBuffer) (outLen : Nat) (file_offset : Nat) : List Nat :=
  if b.contains file_offset then
    let buffer_offset := file_offset - b.buffer_start
    let available := b.data.length - buffer_offset
    let to_copy := min available outLen
    (b.data.drop buffer_offset).take to_copy
  else []

/-- The mutable session fields of `HttpFile` (src/http.rs:203-215).
The transport, configuration and shared cache of the Rust struct are
passed separately (`HttpConfig` / `World`); the prefetch slot keeps its
requested range, its receiver being the `World.recv` oracle. -/
structure HttpFile where
  url : String
  buffer : RangeBuffer
  file_offset : Nat
  eof_reached : Bool
  closed : Bool
  cached_size : Option (Option Nat)
  prefetch : Option (Nat × Nat)
  last_read_end : Option Nat
deriving DecidableEq

/-- The session's environment: the shared cache and the outcomes of
the effectful calls.  `head` is the result of the retrying HEAD
(`get_content_length_with_retry`), issued at most once per session and
counted by `headCalls`; `fetch i s e` is the result of the `i`-th
foreground `get_range_with_retry` for range `(s, e)`; `recv s e` is
what the prefetch receiver for range `(s, e)` delivers (a closed
channel is already folded into the oracle as the
`Network "Prefetch thread canceled"` the source substitutes). -/
structure World where
  cache : RangeCache
  head : Except FsError (Option Nat)
  headCalls : Nat
  fetch : Nat → Nat → Nat → Except FsError (List Nat)
  fetchCalls : Nat
  recv : Nat → Nat → Except FsError (List Nat)

/-- `HttpFile::try_cache_lookup` (src/http.rs:287-296). -/
def HttpFile.try_cache_lookup (st : HttpFile) (w : World) (range_start range_stop : Nat) :
    Option (List Nat) × World :=
  let r := RangeCache.get w.cache ⟨st.url, range_start, range_stop⟩
  (r.1, { w with cache := r.2 })

/-- `HttpFile::store_cache` (src/http.rs:298-308). -/
def HttpFile.store_cache (st : HttpFile) (w : World) (range_start range_stop : Nat)
    (data : List Nat) : World :=
  { w with cache := RangeCache.insert w.cache ⟨st.url, range_start, range_stop⟩ data }

/-- `HttpFile::take_prefetch_if_match` (src/http.rs:310-327): on an
exact range match the slot is consumed and the receiver's result
returned; otherwise the slot is put back and `none` returned. -/
def HttpFile.take_prefetch_if_match (st : HttpFile) (w : World) (range_start range_stop : Nat) :
    Option (Except FsError (List Nat)) × HttpFile :=
  match st.prefetch with
  | none => (none, st)
  | some (ps, pe) =>
    if ps = range_start ∧ pe = range_stop then
      (some (w.recv range_start range_stop), { st with prefetch := none })
    else (none, st)

/-- The `.ok().flatten()` applied to the probe result in
`refill_buffer` and `size` (src/http.rs:400, 568): an error becomes an
unknown length. -/
def probe_flatten : Except FsError (Option Nat) → Option Nat
  | .ok v => v
  | .error _ => none

/-- The body of `HttpFile::refill_buffer` after the lazy content-length
probe (src/http.rs:407-462), with `file_size` — the probed length —
passed in: try the cache, otherwise consume a matching prefetch slot
or fetch in the foreground, compute the EOF flag, store and install
the chunk, and apply the no-progress guard.
`if reached_eof { eof_reached = true }` is written
`eof_reached || reached_eof`. -/
def HttpFile.refill_with_size (st : HttpFile) (cfg : HttpConfig) (w : World)
    (file_size : Option Nat) : Except FsError (HttpFile × World) :=
  let range_start := st.file_offset
  let range_stop := st.file_offset + (cfg.chunk_size - 1)
  let old_buffer_end := st.buffer.buffer_end
  let expected_size := range_stop - range_start + 1
  let looked := st.try_cache_lookup w range_start range_stop
  match looked.1 with
  | some data =>
    let w2 := looked.2
    if data.length = 0 then
      .ok ({ st with eof_reached := true, buffer := RangeBuffer.new }, w2)
    else
      let actual_size := data.length
      let actual_stop := range_start + actual_size
      let reached_eof :=
        match file_size with
        | some size => decide (size ≤ actual_stop)
        | none => decide (actual_size < expected_size) && decide (0 < old_buffer_end)
      .ok ({ st with eof_reached := st.eof_reached || reached_eof,
                     buffer := st.buffer.set_data data range_start actual_stop }, w2)
  | none =>
    let w2 := looked.2
    let taken := st.take_prefetch_if_match w2 range_start range_stop
    let st2 := taken.2
    let resp : Except FsError (List Nat) × World :=
      match taken.1 with
      | some r => (r, w2)
      | none => (w2.fetch w2.fetchCalls range_start range_stop,
                 { w2 with fetchCalls := w2.fetchCalls + 1 })
    match resp.1 with
    | .error e => .error e
    | .ok data =>
      let w3 := resp.2
      if data.length = 0 then
        .ok ({ st2 with eof_reached := true, buffer := RangeBuffer.new }, w3)
      else
        let actual_size := data.length
        let actual_stop := range_start + actual_size
        let reached_eof :=
          match file_size with
          | some size => decide (size ≤ actual_stop)
          | none => decide (actual_size < expected_size) && decide (0 < old_buffer_end)
        let st3 := { st2 with eof_reached := st2.eof_reached || reached_eof }
        let w4 := st3.store_cache w3 range_start range_stop data
        let st4 := { st3 with buffer := st3.buffer.set_data data range_start actual_stop }
        if st4.buffer.buffer_end ≤ old_buffer_end ∧ 0 < old_buffer_end then
          .error (FsError.Protocol ("Buffer refill did not advance"))
        else .ok (st4, w4)

/-- `HttpFile::refill_buffer` (src/http.rs:390-463): probe the content
length lazily and memoize it (src/http.rs:399-405; an error from the
retrying HEAD becomes "probed, unknown", see `probe_flatten`), then
run the rest of the refill with that `file_size`. -/
def HttpFile.refill_buffer (st : HttpFile) (cfg : HttpConfig) (w : World) :
    Except FsError (HttpFile × World) :=
  match st.cached_size with
  | none =>
    let sz := probe_flatten w.head
    HttpFile.refill_with_size { st with cached_size := some sz } cfg
      { w with headCalls := w.headCalls + 1 } sz
  | some sz => HttpFile.refill_with_size st cfg w sz

/-- `HttpFile::maybe_prefetch_next` (src/http.rs:329-388).  The third
component records whether a background worker was actually spawned
(the source stores the new slot exactly then); the worker itself is
not modelled beyond the `recv` oracle that will deliver its result. -/
def HttpFile.maybe_prefetch_next (st : HttpFile) (cfg : HttpConfig) (w : World) :
    HttpFile × World × Bool :=
  if !cfg.read_ahead || st.eof_reached then (st, w, false)
  else
    let buffer_end := st.buffer.buffer_end
    if buffer_end ≤ st.file_offset then (st, w, false)
    else
      let remaining := buffer_end - st.file_offset
      if cfg.read_ahead_trigger < remaining then (st, w, false)
      else
        let next_start := buffer_end
        let next_stop := next_start + (cfg.chunk_size - 1)
        if st.prefetch = some (next_start, next_stop) then (st, w, false)
        else
          let looked := st.try_cache_lookup w next_start next_stop
          match looked.1 with
          | some _ => (st, looked.2, false)
          | none => ({ st with prefetch := some (next_start, next_stop) }, looked.2, true)

/-- `HttpFile::MAX_REFILL_ATTEMPTS` (src/http.rs:218). -/
def maxRefillAttempts : Nat := 3

/-- The `while total_read < buf.len()` loop of `HttpFile::read`
(src/http.rs:480-517).  `acc` holds the bytes copied out so far
(`total_read = acc.length`) and `attempts` is `refill_attempts`.  The
loop terminates because each pass either copies at least one byte or
increments `refill_attempts`, which is capped at
`maxRefillAttempts + 1`. -/
def HttpFile.read_loop (cfg : HttpConfig) (bufLen : Nat) (st : HttpFile) (w : World)
    (acc : List Nat) (attempts : Nat) : Except FsError (List Nat × HttpFile × World) :=
  if h : acc.length < bufLen then
    if st.buffer.contains st.file_offset then
      if hb : (st.buffer.read (bufLen - acc.length) st.file_offset).length = 0 then
        .error (FsError.Protocol ("Internal error: buffer contains offset but read returned 0"))
      else
        let bytes := st.buffer.read (bufLen - acc.length) st.file_offset
        let st' := { st with file_offset := st.file_offset + bytes.length }
        if st'.eof_reached && !st'.buffer.contains st'.file_offset then
          .ok (acc ++ bytes, st', w)
        else
          HttpFile.read_loop cfg bufLen st' w (acc ++ bytes) 0
    else if st.eof_reached then
      .ok (acc, st, w)
    else
      match st.refill_buffer cfg w with
      | .error e => .error e
      | .ok (st', w') =>
        if st'.eof_reached && !st'.buffer.contains st'.file_offset then
          .ok (acc, st', w')
        else if hA : maxRefillAttempts < attempts + 1 then
          .error (FsError.Protocol ("Too many refill attempts without progress"))
        else
          HttpFile.read_loop cfg bufLen st' w' acc (attempts + 1)
  else .ok (acc, st, w)
termination_by (bufLen - acc.length) * (maxRefillAttempts + 2) + (maxRefillAttempts + 1 - attempts)
decreasing_by
  all_goals simp only [maxRefillAttempts, List.length_append] at *
  all_goals omega

/-- `File::read for HttpFile` (src/http.rs:467-535): the empty-buffer
and closed checks, the copy loop, and the sequential-access / prefetch
postlude.  Returns the bytes copied out (whose length is the `usize`
the source returns). -/
def HttpFile.read (st : HttpFile) (cfg : HttpConfig) (w : World) (bufLen : Nat) :
    Except FsError (List Nat × HttpFile × World) :=
  if bufLen = 0 then .ok ([], st, w)
  else if st.closed then .error FsError.FileClosed
  else
    let start_offset := st.file_offset
    match HttpFile.read_loop cfg bufLen st w [] 0 with
    | .error e => .error e
    | .ok (acc, st1, w1) =>
      if 0 < acc.length then
        let sequential :=
          match st1.last_read_end with
          | some prev_end => decide (start_offset = prev_end)
          | none => true
        let st2 := { st1 with last_read_end := some (start_offset + acc.length) }
        if sequential then
          let r := st2.maybe_prefetch_next cfg w1
          .ok (acc, r.1, r.2.1)
        else
          .ok (acc, { st2 with prefetch := none }, w1)
      else .ok (acc, st1, w1)

/-- `File::seek for HttpFile` (src/http.rs:537-552). -/
def HttpFile.seek (st : HttpFile) (pos : Nat) : Except FsError HttpFile :=
  if st.closed then .error FsError.FileClosed
  else
    let buffer' :=
      if decide (pos < st.file_offset) || !st.buffer.contains pos then RangeBuffer.new
      else st.buffer
    .ok { st with buffer := buffer', file_offset := pos, eof_reached := false,
                  prefetch := none, last_read_end := none }

/-- `File::tell for HttpFile` (src/http.rs:554-556): returns the offset
unconditionally (no closed check, and its type admits no error). -/
def HttpFile.tell (st : HttpFile) : Nat := st.file_offset

/-- `File::eof for HttpFile` (src/http.rs:558-560): returns the flag
unconditionally. -/
def HttpFile.eof (st : HttpFile) : Bool := st.eof_reached

/-- `File::size for HttpFile` (src/http.rs:562-573): `None` when
closed, otherwise the lazily probed and memoized content length. -/
def HttpFile.size (st : HttpFile) (w : World) : Option Nat × HttpFile × World :=
  if st.closed then (none, st, w)
  else
    match st.cached_size with
    | none =>
      let sz := probe_flatten w.head
      (sz, { st with cached_size := some sz }, { w with headCalls := w.headCalls + 1 })
    | some sz => (sz, st, w)

/-- `File::close for HttpFile` (src/http.rs:575-581). -/
def HttpFile.close (st : HttpFile) : HttpFile :=
  if st.closed then st
  else { st with buffer := RangeBuffer.new, prefetch := none, closed := true }

/-! ### Association-list and order-list lemmas for the cache -/

@[simp] lemma map_keys_nil : map_keys [] = [] := rfl

@[simp] lemma map_keys_cons (k : CacheKey) (e : CacheEntry) (tl : List (CacheKey × CacheEntry)) :
    map_keys ((k, e) :: tl) = k :: map_keys tl := rfl

lemma map_get_eq_none_iff (m : List (CacheKey × CacheEntry)) (k : CacheKey) :
    map_get m k = none ↔ k ∉ map_keys m := by
  induction m with
  | nil => simp [map_get]
  | cons hd tl ih =>
    obtain ⟨k', e⟩ := hd
    rw [map_keys_cons, List.mem_cons]
    by_cases hk : k' = k
    · subst hk
      simp [map_get]
    · simp only [map_get, if_neg hk]
      rw [ih]
      constructor
      · intro h hc
        rcases hc with hc | hc
        · exact hk hc.symm
        · exact h hc
      · intro h hc
        exact h (Or.inr hc)

lemma mem_map_keys_iff (m : List (CacheKey × CacheEntry)) (k : CacheKey) :
    k ∈ map_keys m ↔ ∃ e, map_get m k = some e := by
  constructor
  · intro hmem
    cases hg : map_get m k with
    | none => exact absurd hmem ((map_get_eq_none_iff m k).mp hg)
    | some e => exact ⟨e, rfl⟩
  · rintro ⟨e, he⟩
    by_contra hnot
    rw [← map_get_eq_none_iff] at hnot
    rw [hnot] at he
    cases he

lemma map_keys_map_remove (m : List (CacheKey × CacheEntry)) (k : CacheKey) :
    map_keys (map_remove m k) = lru_remove (map_keys m) k := by
  induction m with
  | nil => simp [map_remove, map_keys, lru_remove]
  | cons hd tl ih =>
    obtain ⟨k', e⟩ := hd
    by_cases hk : k' = k
    · simp [map_remove, hk, map_keys, lru_remove]
    · simp [map_remove, hk, map_keys, lru_remove] at ih ⊢
      exact ih

lemma lru_remove_sublist (l : List CacheKey) (k : CacheKey) :
    (lru_remove l k).Sublist l := by
  induction l with
  | nil => simp [lru_remove]
  | cons hd tl ih =>
    by_cases hk : hd = k
    · simp only [lru_remove, if_pos hk]
      exact List.sublist_cons_self hd tl
    · simp only [lru_remove, if_neg hk]
      exact ih.cons₂ hd

lemma lru_remove_nodup (l : List CacheKey) (k : CacheKey) (h : l.Nodup) :
    (lru_remove l k).Nodup :=
  h.sublist (lru_remove_sublist l k)

lemma mem_lru_remove (l : List CacheKey) (k a : CacheKey) (h : l.Nodup) :
    a ∈ lru_remove l k ↔ a ∈ l ∧ a ≠ k := by
  induction l with
  | nil => simp [lru_remove]
  | cons hd tl ih =>
    rw [List.nodup_cons] at h
    by_cases hk : hd = k
    · subst hk
      simp only [lru_remove, if_pos rfl]
      constructor
      · intro hmem
        refine ⟨List.mem_cons_of_mem _ hmem, ?_⟩
        intro heq
        subst heq
        exact h.1 hmem
      · rintro ⟨hmem, hne⟩
        rcases List.mem_cons.mp hmem with h1 | h2
        · exact absurd h1 hne
        · exact h2
    · rw [lru_remove]
      simp only [if_neg hk]
      rw [List.mem_cons, List.mem_cons, ih h.2]
      constructor
      · rintro (h1 | ⟨h2, h3⟩)
        · subst h1
          exact ⟨Or.inl rfl, fun hc => hk hc⟩
        · exact ⟨Or.inr h2, h3⟩
      · rintro ⟨h1 | h2, h3⟩
        · exact Or.inl h1
        · exact Or.inr ⟨h2, h3⟩

lemma lru_remove_of_not_mem (l : List CacheKey) (k : CacheKey) (h : k ∉ l) :
    lru_remove l k = l := by
  induction l with
  | nil => simp [lru_remove]
  | cons hd tl ih =>
    rw [List.mem_cons] at h
    push_neg at h
    rw [lru_remove]
    rw [if_neg (fun hc => h.1 hc.symm)]
    rw [ih h.2]

lemma map_remove_of_get_none (m : List (CacheKey × CacheEntry)) (k : CacheKey)
    (h : map_get m k = none) : map_remove m k = m := by
  induction m with
  | nil => simp [map_remove]
  | cons hd tl ih =>
    obtain ⟨k', e⟩ := hd
    by_cases hk : k' = k
    · simp [map_get, hk] at h
    · simp [map_get, hk] at h
      simp [map_remove, hk, ih h]

lemma sum_sizes_map_remove (m : List (CacheKey × CacheEntry)) (k : CacheKey) (e : CacheEntry)
    (h : map_get m k = some e) : sum_sizes (map_remove m k) + e.size = sum_sizes m := by
  induction m with
  | nil => simp [map_get] at h
  | cons hd tl ih =>
    obtain ⟨k', e'⟩ := hd
    by_cases hk : k' = k
    · simp [map_get, hk] at h
      subst h
      simp [map_remove, hk, sum_sizes]
      omega
    · simp [map_get, hk] at h
      have := ih h
      simp [map_remove, hk, sum_sizes] at this ⊢
      omega

lemma length_map_remove (m : List (CacheKey × CacheEntry)) (k : CacheKey) (e : CacheEntry)
    (h : map_get m k = some e) : (map_remove m k).length + 1 = m.length := by
  induction m with
  | nil => simp [map_get] at h
  | cons hd tl ih =>
    obtain ⟨k', e'⟩ := hd
    by_cases hk : k' = k
    · simp [map_remove, hk]
    · simp [map_get, hk] at h
      have := ih h
      simp [map_remove, hk]
      omega

@[simp] lemma sum_sizes_nil : sum_sizes [] = 0 := rfl

@[simp] lemma sum_sizes_cons (k : CacheKey) (e : CacheEntry) (tl : List (CacheKey × CacheEntry)) :
    sum_sizes ((k, e) :: tl) = e.size + sum_sizes tl := rfl

lemma getLast?_decomp {l : List CacheKey} {k : CacheKey} (h : l.getLast? = some k) :
    l.dropLast ++ [k] = l :=
  List.dropLast_append_getLast? k (Option.mem_def.mpr h)

lemma dropLast_facts {l : List CacheKey} {k : CacheKey} (h : l.getLast? = some k)
    (hn : l.Nodup) :
    l.dropLast.Nodup ∧ (∀ a, a ∈ l.dropLast ↔ a ∈ l ∧ a ≠ k) ∧
    l.dropLast.length + 1 = l.length ∧ k ∈ l := by
  have hd := getLast?_decomp h
  have hn' : (l.dropLast ++ [k]).Nodup := by rw [hd]; exact hn
  rw [List.nodup_append] at hn'
  obtain ⟨h1, _, h3⟩ := hn'
  have hknot : k ∉ l.dropLast := by
    intro hc
    exact h3 hc (List.mem_singleton_self k)
  refine ⟨h1, ?_, ?_, ?_⟩
  · intro a
    constructor
    · intro ha
      refine ⟨?_, ?_⟩
      · rw [← hd]; exact List.mem_append_left _ ha
      · intro hak
        subst hak
        exact hknot ha
    · rintro ⟨ha, hak⟩
      rw [← hd] at ha
      rcases List.mem_append.mp ha with h4 | h4
      · exact h4
      · exact absurd (List.mem_singleton.mp h4) hak
  · have := congrArg List.length hd
    simpa using this
  · rw [← hd]
    exact List.mem_append_right _ (List.mem_singleton_self k)

lemma map_of_empty_keys {m : List (CacheKey × CacheEntry)} (h : map_keys m = []) : m = [] := by
  cases m with
  | nil => rfl
  | cons hd tl =>
    obtain ⟨k, e⟩ := hd
    simp at h

lemma cacheWF_empty_lru {c : RangeCache} (h : cacheWF c) (hl : c.lru = []) : c.map = [] := by
  obtain ⟨_, _, hmem, _⟩ := h
  apply map_of_empty_keys
  rw [List.eq_nil_iff_forall_not_mem]
  intro k hk
  have := (hmem k).mpr hk
  rw [hl] at this
  cases this

lemma evict_go_spec : ∀ (fuel : Nat) (c : RangeCache), cacheWF c → c.lru.length ≤ fuel →
    cacheWF (evict_go fuel c) ∧ cacheBounded (evict_go fuel c) := by
  intro fuel
  induction fuel with
  | zero =>
    intro c hwf hlen
    have hl : c.lru = [] := List.eq_nil_of_length_eq_zero (Nat.le_zero.mp hlen)
    have hm : c.map = [] := cacheWF_empty_lru hwf hl
    simp only [evict_go]
    refine ⟨hwf, ?_, ?_⟩
    · rw [hm]; exact Nat.zero_le _
    · rw [hwf.2.2.2, hm]; exact Nat.zero_le _
  | succ fuel ih =>
    intro c hwf hlen
    by_cases hcond : c.max_entries < c.map.length ∨ c.max_bytes < c.current_bytes
    · cases hl : c.lru.getLast? with
      | none =>
        have hlnil : c.lru = [] := by
          cases hlr : c.lru with
          | nil => rfl
          | cons hd tl => rw [hlr] at hl; simp at hl
        have hm : c.map = [] := cacheWF_empty_lru hwf hlnil
        have : evict_go (fuel + 1) c = c := by
          simp only [evict_go, if_pos hcond, hl]
        rw [this]
        refine ⟨hwf, ?_, ?_⟩
        · rw [hm]; exact Nat.zero_le _
        · rw [hwf.2.2.2, hm]; exact Nat.zero_le _
      | some key =>
        obtain ⟨hkn, hln, hmem, hbytes⟩ := hwf
        obtain ⟨hdn, hdmem, hdlen, hkmem⟩ := dropLast_facts hl hln
        have hkmap : key ∈ map_keys c.map := (hmem key).mp hkmem
        obtain ⟨entry, hg⟩ := (mem_map_keys_iff c.map key).mp hkmap
        have hstep : evict_go (fuel + 1) c =
            evict_go fuel { c with map := map_remove c.map key,
                                   current_bytes := c.current_bytes - entry.size,
                                   lru := c.lru.dropLast } := by
          simp only [evict_go, if_pos hcond, hl, hg]
        rw [hstep]
        apply ih
        · refine ⟨?_, hdn, ?_, ?_⟩
          · rw [map_keys_map_remove]
            exact lru_remove_nodup _ _ hkn
          · intro a
            rw [hdmem a, hmem a, map_keys_map_remove, mem_lru_remove _ _ _ hkn]
          · have hs := sum_sizes_map_remove c.map key entry hg
            simp only
            omega
        · simp only
          omega
    · have : evict_go (fuel + 1) c = c := by
        simp only [evict_go, if_neg hcond]
      rw [this]
      push_neg at hcond
      exact ⟨hwf, hcond.1, hcond.2⟩

lemma evict_to_limits_spec (c : RangeCache) (h : cacheWF c) :
    cacheWF c.evict_to_limits ∧ cacheBounded c.evict_to_limits :=
  evict_go_spec c.lru.length c h le_rfl

lemma insert_push_spec (c : RangeCache) (k : CacheKey) (e : CacheEntry)
    (h : cacheWF c) (hk1 : k ∉ map_keys c.map) (hk2 : k ∉ c.lru) :
    cacheWF { c with current_bytes := c.current_bytes + e.size,
                     map := (k, e) :: c.map, lru := k :: c.lru } := by
  obtain ⟨hkn, hln, hmem, hbytes⟩ := h
  refine ⟨?_, ?_, ?_, ?_⟩
  · rw [map_keys_cons]
    exact List.nodup_cons.mpr ⟨hk1, hkn⟩
  · exact List.nodup_cons.mpr ⟨hk2, hln⟩
  · intro a
    simp only [map_keys_cons, List.mem_cons]
    rw [hmem a]
  · simp only [sum_sizes_cons]
    omega

lemma RangeCache.insert_spec (c : RangeCache) (k : CacheKey) (d : List Nat)
    (h : cacheWF c) (hb : cacheBounded c) :
    cacheWF (c.insert k d) ∧ cacheBounded (c.insert k d) := by
  unfold RangeCache.insert
  by_cases hdis : c.max_entries = 0 ∨ c.max_bytes = 0
  · simp only [if_pos hdis]
    exact ⟨h, hb⟩
  · simp only [if_neg hdis]
    by_cases hbig : c.max_bytes < d.length
    · simp only [if_pos hbig]
      exact ⟨h, hb⟩
    · simp only [if_neg hbig]
      cases hg : map_get c.map k with
      | some existing =>
        simp only [hg]
        obtain ⟨hkn, hln, hmem, hbytes⟩ := h
        have hs := sum_sizes_map_remove c.map k existing hg
        have hc1 : cacheWF { c with current_bytes := c.current_bytes - existing.size,
                                    map := map_remove c.map k,
                                    lru := lru_remove c.lru k } := by
          refine ⟨?_, lru_remove_nodup _ _ hln, ?_, ?_⟩
          · rw [map_keys_map_remove]
            exact lru_remove_nodup _ _ hkn
          · intro a
            rw [map_keys_map_remove, mem_lru_remove _ _ _ hln, mem_lru_remove _ _ _ hkn,
              hmem a]
          · simp only
            omega
        have hk1 : k ∉ map_keys (map_remove c.map k) := by
          rw [map_keys_map_remove]
          intro hcon
          exact ((mem_lru_remove _ _ _ hkn).mp hcon).2 rfl
        have hk2 : k ∉ lru_remove c.lru k := by
          intro hcon
          exact ((mem_lru_remove _ _ _ hln).mp hcon).2 rfl
        exact evict_to_limits_spec _ (insert_push_spec _ k ⟨d, d.length⟩ hc1 hk1 hk2)
      | none =>
        simp only [hg]
        have hk1 : k ∉ map_keys c.map := (map_get_eq_none_iff c.map k).mp hg
        have hk2 : k ∉ c.lru := fun hcon => hk1 ((h.2.2.1 k).mp hcon)
        exact evict_to_limits_spec _ (insert_push_spec _ k ⟨d, d.length⟩ h hk1 hk2)

lemma RangeCache.get_spec (c : RangeCache) (k : CacheKey)
    (h : cacheWF c) (hb : cacheBounded c) :
    cacheWF (c.get k).2 ∧ cacheBounded (c.get k).2 := by
  unfold RangeCache.get
  by_cases hdis : c.max_entries = 0 ∨ c.max_bytes = 0
  · simp only [if_pos hdis]
    exact ⟨h, hb⟩
  · simp only [if_neg hdis]
    cases hg : map_get c.map k with
    | none =>
      simp only [hg]
      exact ⟨h, hb⟩
    | some entry =>
      simp only [hg]
      obtain ⟨hkn, hln, hmem, hbytes⟩ := h
      have hkl : k ∈ c.lru :=
        (hmem k).mpr ((mem_map_keys_iff c.map k).mpr ⟨entry, hg⟩)
      refine ⟨⟨hkn, ?_, ?_, hbytes⟩, hb⟩
      · refine List.nodup_cons.mpr ⟨?_, lru_remove_nodup _ _ hln⟩
        intro hcon
        exact ((mem_lru_remove _ _ _ hln).mp hcon).2 rfl
      · intro a
        rw [List.mem_cons, mem_lru_remove _ _ _ hln, ← hmem a]
        constructor
        · rintro (h1 | ⟨h2, _⟩)
          · rw [h1]; exact hkl
          · exact h2
        · intro h1
          by_cases hak : a = k
          · exact Or.inl hak
          · exact Or.inr ⟨h1, hak⟩

lemma cache_apply_spec (c : RangeCache) (op : CacheOp)
    (h : cacheWF c) (hb : cacheBounded c) :
    cacheWF (cache_apply c op) ∧ cacheBounded (cache_apply c op) := by
  cases op with
  | get k => exact RangeCache.get_spec c k h hb
  | insert k d => exact RangeCache.insert_spec c k d h hb

lemma cache_run_spec (ops : List CacheOp) : ∀ (c : RangeCache),
    cacheWF c → cacheBounded c →
    cacheWF (cache_run ops c) ∧ cacheBounded (cache_run ops c) := by
  induction ops with
  | nil =>
    intro c h hb
    exact ⟨h, hb⟩
  | cons op rest ih =>
    intro c h hb
    have hstep := cache_apply_spec c op h hb
    exact ih (cache_apply c op) hstep.1 hstep.2

lemma RangeCache.new_spec (me mb : Nat) :
    cacheWF (RangeCache.new me mb) ∧ cacheBounded (RangeCache.new me mb) := by
  refine ⟨⟨?_, ?_, ?_, rfl⟩, Nat.zero_le _, Nat.zero_le _⟩
  · exact List.nodup_nil
  · exact List.nodup_nil
  · intro k
    simp [RangeCache.new]

lemma evict_go_bounds_const : ∀ (fuel : Nat) (c : RangeCache),
    (evict_go fuel c).max_entries = c.max_entries ∧
    (evict_go fuel c).max_bytes = c.max_bytes := by
  intro fuel
  induction fuel with
  | zero =>
    intro c
    simp only [evict_go]
    constructor <;> trivial
  | succ fuel ih =>
    intro c
    by_cases hcond : c.max_entries < c.map.length ∨ c.max_bytes < c.current_bytes
    · cases hl : c.lru.getLast? with
      | none => simp only [evict_go, if_pos hcond, hl]; constructor <;> trivial
      | some key =>
        cases hg : map_get c.map key with
        | some entry =>
          simp only [evict_go, if_pos hcond, hl, hg]
          exact ih _
        | none =>
          simp only [evict_go, if_pos hcond, hl, hg]
          exact ih _
    · simp only [evict_go, if_neg hcond]
      constructor <;> trivial

lemma cache_apply_bounds_const (c : RangeCache) (op : CacheOp) :
    (cache_apply c op).max_entries = c.max_entries ∧
    (cache_apply c op).max_bytes = c.max_bytes := by
  cases op with
  | get k =>
    unfold cache_apply RangeCache.get
    by_cases hdis : c.max_entries = 0 ∨ c.max_bytes = 0
    · simp only [if_pos hdis]; constructor <;> trivial
    · simp only [if_neg hdis]
      cases hg : map_get c.map k with
      | none => simp only [hg]; constructor <;> trivial
      | some entry => simp only [hg]; constructor <;> trivial
  | insert k d =>
    unfold cache_apply RangeCache.insert
    by_cases hdis : c.max_entries = 0 ∨ c.max_bytes = 0
    · simp only [if_pos hdis]; constructor <;> trivial
    · simp only [if_neg hdis]
      by_cases hbig : c.max_bytes < d.length
      · simp only [if_pos hbig]; constructor <;> trivial
      · simp only [if_neg hbig]
        cases hg : map_get c.map k with
        | some existing =>
          simp only [hg]
          exact evict_go_bounds_const _ _
        | none =>
          simp only [hg]
          exact evict_go_bounds_const _ _

lemma cache_run_bounds_const (ops : List CacheOp) : ∀ (c : RangeCache),
    (cache_run ops c).max_entries = c.max_entries ∧
    (cache_run ops c).max_bytes = c.max_bytes := by
  induction ops with
  | nil =>
    intro c
    constructor <;> trivial
  | cons op rest ih =>
    intro c
    have h1 := cache_apply_bounds_const c op
    have h2 := ih (cache_apply c op)
    exact ⟨h2.1.trans h1.1, h2.2.trans h1.2⟩

/-- C4.  For every configuration `(max_entries, max_bytes)` and every
finite sequence of `get` / `insert` operations starting from the empty
cache, after each operation returns: the map holds at most
`max_entries` keys, `current_bytes` equals the sum of the stored entry
sizes and is at most `max_bytes`, and the keys of the map coincide
with the keys of the LRU order list, each key occurring exactly once
there.  (Quantifying over all operation lists covers the state after
every prefix of any sequence.) -/
theorem cache_invariants_after_run (me mb : Nat) (ops : List CacheOp) :
    (cache_run ops (RangeCache.new me mb)).map.length ≤ me ∧
    (map_keys (cache_run ops (RangeCache.new me mb)).map).Nodup ∧
    (cache_run ops (RangeCache.new me mb)).current_bytes =
      sum_sizes (cache_run ops (RangeCache.new me mb)).map ∧
    (cache_run ops (RangeCache.new me mb)).current_bytes ≤ mb ∧
    (cache_run ops (RangeCache.new me mb)).lru.Nodup ∧
    (∀ k, k ∈ (cache_run ops (RangeCache.new me mb)).lru ↔
      k ∈ map_keys (cache_run ops (RangeCache.new me mb)).map) := by
  have hnew := RangeCache.new_spec me mb
  have hrun := cache_run_spec ops (RangeCache.new me mb) hnew.1 hnew.2
  have hconst := cache_run_bounds_const ops (RangeCache.new me mb)
  obtain ⟨⟨h1, h2, h3, h4⟩, h5, h6⟩ := hrun
  have hc1 : (cache_run ops (RangeCache.new me mb)).max_entries = me := hconst.1
  have hc2 : (cache_run ops (RangeCache.new me mb)).max_bytes = mb := hconst.2
  refine ⟨?_, h1, h4, ?_, h2, h3⟩
  · omega
  · omega

lemma insert_unfold_fresh (c : RangeCache) (k : CacheKey) (d : List Nat)
    (hdis : ¬(c.max_entries = 0 ∨ c.max_bytes = 0)) (hbig : ¬(c.max_bytes < d.length))
    (hg : map_get c.map k = none) :
    c.insert k d = RangeCache.evict_to_limits
      { c with current_bytes := c.current_bytes + d.length,
               map := (k, ⟨d, d.length⟩) :: c.map, lru := k :: c.lru } := by
  unfold RangeCache.insert
  rw [if_neg hdis]
  simp only [if_neg hbig, hg]

lemma evict_to_limits_of_fit (c : RangeCache)
    (hfit : ¬(c.max_entries < c.map.length ∨ c.max_bytes < c.current_bytes)) :
    RangeCache.evict_to_limits c = c := by
  unfold RangeCache.evict_to_limits
  cases hl : c.lru with
  | nil => rfl
  | cons a tl =>
    rw [List.length_cons]
    simp only [evict_go, if_neg hfit]

lemma evict_to_limits_step (c : RangeCache) (key : CacheKey) (entry : CacheEntry)
    (hcond : c.max_entries < c.map.length ∨ c.max_bytes < c.current_bytes)
    (hl : c.lru.getLast? = some key) (hg : map_get c.map key = some entry) :
    RangeCache.evict_to_limits c =
      RangeCache.evict_to_limits { c with map := map_remove c.map key,
                                          current_bytes := c.current_bytes - entry.size,
                                          lru := c.lru.dropLast } := by
  have hd := getLast?_decomp hl
  have hlen : c.lru.length = c.lru.dropLast.length + 1 := by
    conv_lhs => rw [← hd]
    simp
  conv_lhs => unfold RangeCache.evict_to_limits
  rw [hlen]
  simp only [evict_go, if_pos hcond, hl, hg]
  rfl

/-- C7.  With `max_entries = 2` and a byte bound large enough never to
bind, inserting three distinct keys `k1, k2, k3` in order evicts
exactly `k1` (the resulting map keys are `[k3, k2]`); if `get k1` runs
between the second and third insert, the third insert evicts `k2`
instead (resulting keys `[k3, k1]`), because `get` moves its key to
the most-recently-used position and `insert` evicts from the
least-recently-used end. -/
theorem lru_eviction_order (k1 k2 k3 : CacheKey) (d1 d2 d3 : List Nat) (mb : Nat)
    (hne12 : k1 ≠ k2) (hne13 : k1 ≠ k3) (hne23 : k2 ≠ k3)
    (hmb : 0 < mb) (hsum : d1.length + d2.length + d3.length ≤ mb) :
    map_keys ((((RangeCache.new 2 mb).insert k1 d1).insert k2 d2).insert k3 d3).map
      = [k3, k2] ∧
    k1 ∉ map_keys ((((RangeCache.new 2 mb).insert k1 d1).insert k2 d2).insert k3 d3).map ∧
    map_keys (((((RangeCache.new 2 mb).insert k1 d1).insert k2 d2).get k1).2.insert k3 d3).map
      = [k3, k1] ∧
    k2 ∉ map_keys (((((RangeCache.new 2 mb).insert k1 d1).insert k2 d2).get k1).2.insert
      k3 d3).map := by
  have h1 : (RangeCache.new 2 mb).insert k1 d1 =
      (⟨[(k1, ⟨d1, d1.length⟩)], [k1], 2, mb, 0 + d1.length⟩ : RangeCache) := by
    rw [insert_unfold_fresh _ _ _ (show ¬((2:Nat) = 0 ∨ mb = 0) by omega)
      (show ¬(mb < d1.length) by omega)
      (show map_get (RangeCache.new 2 mb).map k1 = none from rfl)]
    exact evict_to_limits_of_fit _ (show ¬(2 < 1 ∨ mb < 0 + d1.length) by omega)
  have h2 : ((⟨[(k1, ⟨d1, d1.length⟩)], [k1], 2, mb, 0 + d1.length⟩ : RangeCache)).insert
      k2 d2 =
      (⟨[(k2, ⟨d2, d2.length⟩), (k1, ⟨d1, d1.length⟩)], [k2, k1], 2, mb,
        0 + d1.length + d2.length⟩ : RangeCache) := by
    rw [insert_unfold_fresh _ _ _ (show ¬((2:Nat) = 0 ∨ mb = 0) by omega)
      (show ¬(mb < d2.length) by omega)
      (show map_get [(k1, ⟨d1, d1.length⟩)] k2 = none by simp [map_get, hne12])]
    exact evict_to_limits_of_fit _ (show ¬(2 < 2 ∨ mb < 0 + d1.length + d2.length) by omega)
  have h3 : ((⟨[(k2, ⟨d2, d2.length⟩), (k1, ⟨d1, d1.length⟩)], [k2, k1], 2, mb,
      0 + d1.length + d2.length⟩ : RangeCache)).insert k3 d3 =
      (⟨[(k3, ⟨d3, d3.length⟩), (k2, ⟨d2, d2.length⟩)], [k3, k2], 2, mb,
        0 + d1.length + d2.length + d3.length - d1.length⟩ : RangeCache) := by
    rw [insert_unfold_fresh _ _ _ (show ¬((2:Nat) = 0 ∨ mb = 0) by omega)
      (show ¬(mb < d3.length) by omega)
      (show map_get [(k2, ⟨d2, d2.length⟩), (k1, ⟨d1, d1.length⟩)] k3 = none by
        simp [map_get, hne23, hne13])]
    rw [evict_to_limits_step _ k1 ⟨d1, d1.length⟩
      (show 2 < 3 ∨ mb < 0 + d1.length + d2.length + d3.length from Or.inl (by omega))
      (show ([k3, k2, k1] : List CacheKey).getLast? = some k1 from rfl)
      (show map_get [(k3, ⟨d3, d3.length⟩), (k2, ⟨d2, d2.length⟩), (k1, ⟨d1, d1.length⟩)] k1
        = some ⟨d1, d1.length⟩ by simp [map_get, Ne.symm hne13, Ne.symm hne12])]
    show RangeCache.evict_to_limits
        (⟨map_remove [(k3, ⟨d3, d3.length⟩), (k2, ⟨d2, d2.length⟩), (k1, ⟨d1, d1.length⟩)] k1,
          [k3, k2], 2, mb, 0 + d1.length + d2.length + d3.length - d1.length⟩ : RangeCache) = _
    rw [show map_remove [(k3, ⟨d3, d3.length⟩), (k2, ⟨d2, d2.length⟩),
        (k1, ⟨d1, d1.length⟩)] k1 = [(k3, ⟨d3, d3.length⟩), (k2, ⟨d2, d2.length⟩)] by
      simp [map_remove, Ne.symm hne13, Ne.symm hne12]]
    exact evict_to_limits_of_fit _
      (show ¬(2 < 2 ∨ mb < 0 + d1.length + d2.length + d3.length - d1.length) by omega)
  have hget : (((⟨[(k2, ⟨d2, d2.length⟩), (k1, ⟨d1, d1.length⟩)], [k2, k1], 2, mb,
      0 + d1.length + d2.length⟩ : RangeCache)).get k1).2 =
      (⟨[(k2, ⟨d2, d2.length⟩), (k1, ⟨d1, d1.length⟩)], [k1, k2], 2, mb,
        0 + d1.length + d2.length⟩ : RangeCache) := by
    simp only [RangeCache.get]
    rw [if_neg (show ¬((2:Nat) = 0 ∨ mb = 0) by omega)]
    rw [show map_get [(k2, ⟨d2, d2.length⟩), (k1, ⟨d1, d1.length⟩)] k1
        = some ⟨d1, d1.length⟩ by simp [map_get, Ne.symm hne12]]
    rw [show lru_remove [k2, k1] k1 = [k2] by simp [lru_remove, Ne.symm hne12, lru_remove]]
  have h4 : ((⟨[(k2, ⟨d2, d2.length⟩), (k1, ⟨d1, d1.length⟩)], [k1, k2], 2, mb,
      0 + d1.length + d2.length⟩ : RangeCache)).insert k3 d3 =
      (⟨[(k3, ⟨d3, d3.length⟩), (k1, ⟨d1, d1.length⟩)], [k3, k1], 2, mb,
        0 + d1.length + d2.length + d3.length - d2.length⟩ : RangeCache) := by
    rw [insert_unfold_fresh _ _ _ (show ¬((2:Nat) = 0 ∨ mb = 0) by omega)
      (show ¬(mb < d3.length) by omega)
      (show map_get [(k2, ⟨d2, d2.length⟩), (k1, ⟨d1, d1.length⟩)] k3 = none by
        simp [map_get, hne23, hne13])]
    rw [evict_to_limits_step _ k2 ⟨d2, d2.length⟩
      (show 2 < 3 ∨ mb < 0 + d1.length + d2.length + d3.length from Or.inl (by omega))
      (show ([k3, k1, k2] : List CacheKey).getLast? = some k2 from rfl)
      (show map_get [(k3, ⟨d3, d3.length⟩), (k2, ⟨d2, d2.length⟩), (k1, ⟨d1, d1.length⟩)] k2
        = some ⟨d2, d2.length⟩ by simp [map_get, Ne.symm hne23])]
    show RangeCache.evict_to_limits
        (⟨map_remove [(k3, ⟨d3, d3.length⟩), (k2, ⟨d2, d2.length⟩), (k1, ⟨d1, d1.length⟩)] k2,
          [k3, k1], 2, mb, 0 + d1.length + d2.length + d3.length - d2.length⟩ : RangeCache) = _
    rw [show map_remove [(k3, ⟨d3, d3.length⟩), (k2, ⟨d2, d2.length⟩),
        (k1, ⟨d1, d1.length⟩)] k2 = [(k3, ⟨d3, d3.length⟩), (k1, ⟨d1, d1.length⟩)] by
      simp [map_remove, Ne.symm hne23]]
    exact evict_to_limits_of_fit _
      (show ¬(2 < 2 ∨ mb < 0 + d1.length + d2.length + d3.length - d2.length) by omega)
  refine ⟨?_, ?_, ?_, ?_⟩
  · rw [h1, h2, h3]
    rfl
  · rw [h1, h2, h3]
    simp [map_keys, hne13, hne12]
  · rw [h1, h2, hget, h4]
    rfl
  · rw [h1, h2, hget, h4]
    simp [map_keys, hne23, Ne.symm hne12]

/-! ### Retry policy -/

lemma retry_loop_of_ok (t : Nat → Except FsError α) (r a : Nat) (v : α)
    (h : t a = .ok v) : retry_loop t r a = (.ok v, a + 1) := by
  rw [retry_loop, h]

lemma retry_loop_of_non_network (t : Nat → Except FsError α) (r a : Nat) (e : FsError)
    (h : t a = .error e) (hn : e.is_network = false) :
    retry_loop t r a = (.error e, a + 1) := by
  rw [retry_loop, h]
  cases e with
  | Network s => simp [FsError.is_network] at hn
  | Protocol s => rfl
  | Io s => rfl
  | FileClosed => rfl
  | UnsupportedProtocol s => rfl

lemma retry_loop_net_zero (t : Nat → Except FsError α) (a : Nat) (s : String)
    (h : t a = .error (FsError.Network s)) :
    retry_loop t 0 a = (.error (FsError.Network s), a + 1) := by
  rw [retry_loop, h]

lemma retry_loop_net_step (t : Nat → Except FsError α) (r a : Nat) (s : String)
    (h : t a = .error (FsError.Network s)) :
    retry_loop t (r + 1) a = retry_loop t r (a + 1) := by
  rw [retry_loop, h]

lemma retry_loop_first_ok (t : Nat → Except FsError α) :
    ∀ (d a : Nat) (v : α),
    (∀ j, a ≤ j → j < a + d → ∃ s, t j = .error (FsError.Network s)) →
    t (a + d) = .ok v →
    ∀ r, d ≤ r → retry_loop t r a = (.ok v, a + d + 1) := by
  intro d
  induction d with
  | zero =>
    intro a v _ hok r _
    exact retry_loop_of_ok t r a v hok
  | succ d ih =>
    intro a v hnet hok r hdr
    obtain ⟨s, hs⟩ := hnet a le_rfl (by omega)
    obtain ⟨r', rfl⟩ : ∃ r', r = r' + 1 := ⟨r - 1, by omega⟩
    rw [retry_loop_net_step t r' a s hs]
    have := ih (a + 1) v
      (fun j hj1 hj2 => hnet j (by omega) (by omega))
      (by rw [show a + 1 + d = a + (d + 1) by omega]; exact hok)
      r' (by omega)
    rw [this]
    congr 2
    omega

lemma retry_loop_all_network (t : Nat → Except FsError α) :
    ∀ (r a : Nat) (s : String),
    (∀ j, a ≤ j → j < a + r → ∃ s', t j = .error (FsError.Network s')) →
    t (a + r) = .error (FsError.Network s) →
    retry_loop t r a = (.error (FsError.Network s), a + r + 1) := by
  intro r
  induction r with
  | zero =>
    intro a s _ hlast
    exact retry_loop_net_zero t a s hlast
  | succ r ih =>
    intro a s hnet hlast
    obtain ⟨s0, hs0⟩ := hnet a le_rfl (by omega)
    rw [retry_loop_net_step t r a s0 hs0]
    have := ih (a + 1) s
      (fun j hj1 hj2 => hnet j (by omega) (by omega))
      (by rw [show a + 1 + r = a + (r + 1) by omega]; exact hlast)
    rw [this]
    congr 2
    omega

/-- C3.  `get_range_with_retry` returns the first `Ok` the transport
produces; a non-Network error from the first call is returned at once
after exactly one transport call; and if every call up to the retry
budget fails with a Network error, exactly `1 + retry_max_attempts`
calls are made and the last Network error is returned. -/
theorem get_range_with_retry_policy
    (transport : String → Nat → Nat → Nat → Except FsError (List Nat))
    (url : String) (range_start range_stop rm : Nat) :
    (∀ k v, k ≤ rm →
      (∀ j, j < k → ∃ s, transport url range_start range_stop j = .error (FsError.Network s)) →
      transport url range_start range_stop k = .ok v →
      get_range_with_retry transport url range_start range_stop rm = (.ok v, k + 1)) ∧
    (∀ e, transport url range_start range_stop 0 = .error e → e.is_network = false →
      get_range_with_retry transport url range_start range_stop rm = (.error e, 1)) ∧
    (∀ s, (∀ j, j ≤ rm → ∃ s', transport url range_start range_stop j =
        .error (FsError.Network s')) →
      transport url range_start range_stop rm = .error (FsError.Network s) →
      get_range_with_retry transport url range_start range_stop rm =
        (.error (FsError.Network s), rm + 1)) := by
  refine ⟨?_, ?_, ?_⟩
  · intro k v hk hnet hok
    have := retry_loop_first_ok (fun a => transport url range_start range_stop a)
      k 0 v (fun j hj1 hj2 => hnet j (by omega)) (by simpa using hok) rm hk
    simpa [get_range_with_retry] using this
  · intro e h0 hn
    have := retry_loop_of_non_network (fun a => transport url range_start range_stop a)
      rm 0 e h0 hn
    simpa [get_range_with_retry] using this
  · intro s hnet hlast
    have := retry_loop_all_network (fun a => transport url range_start range_stop a)
      rm 0 s (fun j hj1 hj2 => hnet j (by omega)) (by simpa using hlast)
    simpa [get_range_with_retry] using this

/-- A transport that fails with a Network error on its first two calls
and then succeeds, used to witness the retry-policy theorem. -/
def transportC3 : String → Nat → Nat → Nat → Except FsError (List Nat) :=
  fun _ _ _ a => if a < 2 then .error (FsError.Network ("connection reset"))
    else .ok [7, 8, 9]

/-- Witness for the retry-policy theorem: with `retry_max_attempts = 3`
and Network failures on attempts 0 and 1, the wrapper returns the
attempt-2 success after exactly 3 transport calls. -/
theorem get_range_with_retry_policy_witness :
    get_range_with_retry transportC3 ("u") 0 9 3 = (.ok [7, 8, 9], 3) := by
  have h := (get_range_with_retry_policy transportC3 ("u") 0 9 3).1 2 [7, 8, 9]
    (by omega)
    (fun j hj => ⟨"connection reset", by unfold transportC3; rw [if_pos hj]⟩)
    (by unfold transportC3; rfl)
  exact h

/-! ### Session-level theorems: seek, closed-file behaviour, empty reads -/

/-- A sample configuration for witnesses: `chunk_size = 10`,
read-ahead on with trigger 3, `retry_max_attempts = 3`. -/
def cfg0 : HttpConfig := ⟨10, true, 3, 3⟩

/-- A sample environment for witnesses. -/
def w0 : World :=
  ⟨RangeCache.new 4 4096, .ok (some 15), 0, fun _ _ _ => .ok [0], 0, fun _ _ => .ok [0]⟩

/-- C6.  On a non-closed file, `seek p` succeeds; afterwards the offset
is `p`, the EOF flag is cleared, the prefetch slot and the sequential
detector are dropped, and the resident buffer is cleared exactly when
`p` lies before the old offset or outside the resident buffer (a
forward seek into the buffer keeps it).  On a closed file `seek` fails
with `FileClosed`. -/
theorem seek_spec (st : HttpFile) (p : Nat) :
    (st.closed = false →
      HttpFile.seek st p = .ok { st with
        buffer := if decide (p < st.file_offset) || !st.buffer.contains p then RangeBuffer.new
                  else st.buffer,
        file_offset := p, eof_reached := false, prefetch := none, last_read_end := none } ∧
      (∀ st', HttpFile.seek st p = .ok st' →
        st'.file_offset = p ∧ HttpFile.tell st' = p ∧ st'.eof_reached = false ∧
        st'.prefetch = none ∧ st'.last_read_end = none ∧
        (st'.buffer = RangeBuffer.new ↔ (p < st.file_offset ∨ st.buffer.contains p = false)))) ∧
    (st.closed = true → HttpFile.seek st p = .error FsError.FileClosed) := by
  constructor
  · intro hcl
    have hopen : ¬(st.closed = true) := by rw [hcl]; exact Bool.false_ne_true
    constructor
    · unfold HttpFile.seek
      rw [if_neg hopen]
    · intro st' hst'
      unfold HttpFile.seek at hst'
      rw [if_neg hopen] at hst'
      have hrec := Except.ok.inj hst'
      subst hrec
      refine ⟨rfl, rfl, rfl, rfl, rfl, ?_⟩
      by_cases hcond : (decide (p < st.file_offset) || !st.buffer.contains p) = true
      · rw [if_pos hcond]
        simp only [Bool.or_eq_true, decide_eq_true_eq, Bool.not_eq_true'] at hcond
        simpa using hcond
      · rw [if_neg hcond]
        simp only [Bool.or_eq_true, decide_eq_true_eq, Bool.not_eq_true'] at hcond
        push_neg at hcond
        constructor
        · intro hb
          exfalso
          have hb' : st.buffer = RangeBuffer.new := hb
          have hc : st.buffer.contains p = false := by
            rw [hb']
            simp [RangeBuffer.contains, RangeBuffer.new]
          exact hcond.2 hc
        · intro hor
          exfalso
          rcases hor with h1 | h1
          · omega
          · exact hcond.2 h1
  · intro hcl
    unfold HttpFile.seek
    rw [if_pos hcl]

/-- A sample open session whose resident buffer is `[10, 13)` and whose
offset is 10, used to witness the seek theorem. -/
def stC6 : HttpFile :=
  ⟨"u", ⟨[1, 2, 3], 10, 13⟩, 10, true, false, none, some (13, 22), some 10⟩

/-- Witness for the seek theorem: a forward seek to 12, inside the
resident buffer `[10,13)`, keeps the buffer and clears the flags. -/
theorem seek_spec_witness :
    HttpFile.seek stC6 12 =
      .ok ⟨"u", ⟨[1, 2, 3], 10, 13⟩, 12, false, false, none, none, none⟩ :=
  ((seek_spec stC6 12).1 rfl).1

/-- C9.  `read` with an empty output buffer returns `Ok(0)` and
changes nothing, on every session — the empty-buffer check precedes
the closed check, so this holds for closed files too. -/
theorem read_empty_output (cfg : HttpConfig) (st : HttpFile) (w : World) :
    HttpFile.read st cfg w 0 = .ok ([], st, w) := by
  simp [HttpFile.read]

/-- A session on which `close` has been called (offset 5, EOF flag
set, probed size memoized). -/
def stC5 : HttpFile :=
  HttpFile.close ⟨"u", ⟨[1, 2], 0, 2⟩, 5, true, false, some (some 42), some (2, 11), some 5⟩

/-- Counterexample to C5 as stated: on a closed file, `tell` and `eof`
return their ordinary values (their `u64` / `bool` signatures in
`src/http.rs:554-560` have no closed check and no error channel at
all), and `size` returns `None` rather than failing — none of the
three fails with `FileClosed`. -/
theorem closed_ops_counterexample :
    stC5.closed = true ∧ HttpFile.tell stC5 = 5 ∧ HttpFile.eof stC5 = true ∧
    HttpFile.size stC5 w0 = (none, stC5, w0) :=
  ⟨rfl, rfl, rfl, rfl⟩

/-- C5 amended.  After `close`, `read` into a nonempty buffer and
`seek` fail with `FileClosed`; `tell` and `eof` cannot fail and return
the current offset and EOF flag; `size` returns `None` without
error. -/
theorem closed_ops_amended (cfg : HttpConfig) (st : HttpFile) (w : World)
    (h : st.closed = true) :
    (∀ n, 0 < n → HttpFile.read st cfg w n = .error FsError.FileClosed) ∧
    (∀ p, HttpFile.seek st p = .error FsError.FileClosed) ∧
    HttpFile.size st w = (none, st, w) ∧
    HttpFile.tell st = st.file_offset ∧
    HttpFile.eof st = st.eof_reached := by
  refine ⟨?_, ?_, ?_, rfl, rfl⟩
  · intro n hn
    unfold HttpFile.read
    rw [if_neg (by omega), if_pos h]
  · intro p
    unfold HttpFile.seek
    rw [if_pos h]
  · unfold HttpFile.size
    rw [if_pos h]

/-- Witness for the amended closed-file theorem at the concrete closed
session. -/
theorem closed_ops_amended_witness :
    HttpFile.seek stC5 7 = .error FsError.FileClosed :=
  (closed_ops_amended cfg0 stC5 w0 rfl).2.1 7

/-- A concrete key for the LRU witness. -/
def k1C7 : CacheKey := ⟨"u", 0, 9⟩

/-- A concrete key for the LRU witness. -/
def k2C7 : CacheKey := ⟨"u", 10, 19⟩

/-- A concrete key for the LRU witness. -/
def k3C7 : CacheKey := ⟨"u", 20, 29⟩

/-- Witness for the LRU theorem at three concrete distinct keys. -/
theorem lru_eviction_order_witness :
    map_keys ((((RangeCache.new 2 100).insert k1C7 [1]).insert k2C7 [2]).insert
      k3C7 [3]).map = [k3C7, k2C7] :=
  (lru_eviction_order k1C7 k2C7 k3C7 [1] [2] [3] 100
    (by simp [k1C7, k2C7]) (by simp [k1C7, k3C7]) (by simp [k2C7, k3C7])
    (by omega) (by simp)).1

/-! ### Prefetch scheduling -/

/-- C8.  `maybe_prefetch_next` spawns a background prefetch exactly
when read-ahead is on, EOF is not reached, a resident buffer extends
beyond the offset by at most `read_ahead_trigger` bytes, no current
slot already targets the next range
`(buffer_end, buffer_end + chunk_size - 1)`, and that range misses the
cache; when it spawns, the stored slot records exactly that range. -/
theorem maybe_prefetch_next_spec (cfg : HttpConfig) (st : HttpFile) (w : World)
    (st' : HttpFile) (w' : World) (scheduled : Bool)
    (h : HttpFile.maybe_prefetch_next st cfg w = (st', w', scheduled)) :
    (scheduled = true ↔
      (cfg.read_ahead = true ∧ st.eof_reached = false ∧
       st.file_offset < st.buffer.buffer_end ∧
       st.buffer.buffer_end - st.file_offset ≤ cfg.read_ahead_trigger ∧
       st.prefetch ≠ some (st.buffer.buffer_end,
         st.buffer.buffer_end + (cfg.chunk_size - 1)) ∧
       (RangeCache.get w.cache ⟨st.url, st.buffer.buffer_end,
         st.buffer.buffer_end + (cfg.chunk_size - 1)⟩).1 = none)) ∧
    (scheduled = true → st'.prefetch = some (st.buffer.buffer_end,
      st.buffer.buffer_end + (cfg.chunk_size - 1))) := by
  unfold HttpFile.maybe_prefetch_next at h
  by_cases h1 : (!cfg.read_ahead || st.eof_reached) = true
  · rw [if_pos h1] at h
    obtain ⟨rfl, rfl, rfl⟩ : st = st' ∧ w = w' ∧ false = scheduled := by
      injection h with ha hb
      injection hb with hb hc
      exact ⟨ha, hb, hc⟩
    constructor
    · constructor
      · intro hc
        cases hc
      · rintro ⟨hra, heof, -⟩
        exfalso
        rw [hra, heof] at h1
        cases h1
    · intro hc
      cases hc
  · rw [if_neg h1] at h
    simp only [Bool.or_eq_true, Bool.not_eq_true'] at h1
    push_neg at h1
    obtain ⟨hra0, heof0⟩ := h1
    have hra : cfg.read_ahead = true := by
      cases hv : cfg.read_ahead
      · exact absurd hv hra0
      · rfl
    have heof : st.eof_reached = false := by
      cases hv : st.eof_reached
      · rfl
      · exact absurd hv heof0
    by_cases h2 : st.buffer.buffer_end ≤ st.file_offset
    · rw [if_pos h2] at h
      obtain ⟨rfl, rfl, rfl⟩ : st = st' ∧ w = w' ∧ false = scheduled := by
        injection h with ha hb
        injection hb with hb hc
        exact ⟨ha, hb, hc⟩
      constructor
      · constructor
        · intro hc
          cases hc
        · rintro ⟨-, -, hlt, -⟩
          omega
      · intro hc
        cases hc
    · rw [if_neg h2] at h
      by_cases h3 : cfg.read_ahead_trigger < st.buffer.buffer_end - st.file_offset
      · rw [if_pos h3] at h
        obtain ⟨rfl, rfl, rfl⟩ : st = st' ∧ w = w' ∧ false = scheduled := by
          injection h with ha hb
          injection hb with hb hc
          exact ⟨ha, hb, hc⟩
        constructor
        · constructor
          · intro hc
            cases hc
          · rintro ⟨-, -, -, hle, -⟩
            omega
        · intro hc
          cases hc
      · rw [if_neg h3] at h
        by_cases h4 : st.prefetch = some (st.buffer.buffer_end,
            st.buffer.buffer_end + (cfg.chunk_size - 1))
        · rw [if_pos h4] at h
          obtain ⟨rfl, rfl, rfl⟩ : st = st' ∧ w = w' ∧ false = scheduled := by
            injection h with ha hb
            injection hb with hb hc
            exact ⟨ha, hb, hc⟩
          constructor
          · constructor
            · intro hc
              cases hc
            · rintro ⟨-, -, -, -, hne, -⟩
              exact absurd h4 hne
          · intro hc
            cases hc
        · rw [if_neg h4] at h
          cases h5 : (RangeCache.get w.cache ⟨st.url, st.buffer.buffer_end,
              st.buffer.buffer_end + (cfg.chunk_size - 1)⟩).1 with
          | some dd =>
            simp only [HttpFile.try_cache_lookup, h5] at h
            obtain ⟨rfl, rfl, rfl⟩ : st = st' ∧ _ = w' ∧ false = scheduled := by
              injection h with ha hb
              injection hb with hb hc
              exact ⟨ha, hb, hc⟩
            constructor
            · constructor
              · intro hc
                cases hc
              · rintro ⟨-, -, -, -, -, hmiss⟩
                simp at hmiss
            · intro hc
              cases hc
          | none =>
            simp only [HttpFile.try_cache_lookup, h5] at h
            obtain ⟨rfl, rfl, rfl⟩ : _ = st' ∧ _ = w' ∧ true = scheduled := by
              injection h with ha hb
              injection hb with hb hc
              exact ⟨ha, hb, hc⟩
            constructor
            · constructor
              · intro _
                refine ⟨hra, heof, by omega, by omega, h4, ?_⟩
                first
                | exact h5
                | rfl
              · intro _
                rfl
            · intro _
              rfl

/-! ### Refill-buffer dissection -/

lemma take_prefetch_fields (st : HttpFile) (w : World) (a b : Nat) :
    ((st.take_prefetch_if_match w a b).2).url = st.url ∧
    ((st.take_prefetch_if_match w a b).2).buffer = st.buffer ∧
    ((st.take_prefetch_if_match w a b).2).file_offset = st.file_offset ∧
    ((st.take_prefetch_if_match w a b).2).eof_reached = st.eof_reached ∧
    ((st.take_prefetch_if_match w a b).2).closed = st.closed ∧
    ((st.take_prefetch_if_match w a b).2).cached_size = st.cached_size := by
  unfold HttpFile.take_prefetch_if_match
  cases st.prefetch with
  | none => exact ⟨rfl, rfl, rfl, rfl, rfl, rfl⟩
  | some pr =>
    obtain ⟨ps, pe⟩ := pr
    by_cases hm : ps = a ∧ pe = b
    · simp [hm.1, hm.2]
    · simp [hm]

/-- Everything a successful `refill_with_size` guarantees: the offset,
closed flag and size memo are untouched, no HEAD call is made, and
when a nonempty chunk was installed, the buffer starts at the offset,
ends at offset plus payload length, and (when the EOF flag was clear
on entry) the flag is set exactly by the EOF rule for `file_size`. -/
lemma refill_with_size_ok (cfg : HttpConfig) (st : HttpFile) (w : World)
    (fs : Option Nat) (st' : HttpFile) (w' : World)
    (h : HttpFile.refill_with_size st cfg w fs = .ok (st', w')) :
    st'.file_offset = st.file_offset ∧
    st'.closed = st.closed ∧
    st'.cached_size = st.cached_size ∧
    w'.headCalls = w.headCalls ∧
    (st'.buffer.data ≠ [] →
      st'.buffer.buffer_start = st.file_offset ∧
      st'.buffer.buffer_end = st.file_offset + st'.buffer.data.length ∧
      (st.eof_reached = false →
        (∀ n, fs = some n →
          (st'.eof_reached = true ↔ n ≤ st.file_offset + st'.buffer.data.length)) ∧
        (fs = none →
          (st'.eof_reached = true ↔
            (st'.buffer.data.length <
              (st.file_offset + (cfg.chunk_size - 1)) - st.file_offset + 1 ∧
             0 < st.buffer.buffer_end))))) := by
  cases hpf : st.prefetch with
  | none =>
    simp only [HttpFile.refill_with_size, HttpFile.try_cache_lookup,
      HttpFile.take_prefetch_if_match, hpf] at h
    split at h
    · split at h
      · injection h with hp
        injection hp with hA hB
        subst hA
        subst hB
        refine ⟨rfl, rfl, rfl, rfl, ?_⟩
        intro hd
        exact absurd rfl hd
      · injection h with hp
        injection hp with hA hB
        subst hA
        subst hB
        refine ⟨rfl, rfl, rfl, rfl, ?_⟩
        intro _
        refine ⟨rfl, rfl, ?_⟩
        intro heof
        simp only [heof, Bool.false_or]
        refine ⟨?_, ?_⟩
        · intro n hn
          subst hn
          simp [RangeBuffer.set_data]
        · intro hn
          subst hn
          simp [RangeBuffer.set_data]
    · split at h
      · cases h
      · split at h
        · injection h with hp
          injection hp with hA hB
          subst hA
          subst hB
          refine ⟨rfl, rfl, rfl, rfl, ?_⟩
          intro hd
          exact absurd rfl hd
        · split at h
          · cases h
          · injection h with hp
            injection hp with hA hB
            subst hA
            subst hB
            refine ⟨rfl, rfl, rfl, rfl, ?_⟩
            intro _
            refine ⟨rfl, rfl, ?_⟩
            intro heof
            simp only [heof, Bool.false_or]
            refine ⟨?_, ?_⟩
            · intro n hn
              subst hn
              simp [RangeBuffer.set_data]
            · intro hn
              subst hn
              simp [RangeBuffer.set_data]
  | some pr =>
    obtain ⟨ps, pe⟩ := pr
    by_cases hm : ps = st.file_offset ∧ pe = st.file_offset + (cfg.chunk_size - 1)
    · simp only [HttpFile.refill_with_size, HttpFile.try_cache_lookup,
        HttpFile.take_prefetch_if_match, hpf, if_pos hm] at h
      split at h
      · split at h
        · injection h with hp
          injection hp with hA hB
          subst hA
          subst hB
          refine ⟨rfl, rfl, rfl, rfl, ?_⟩
          intro hd
          exact absurd rfl hd
        · injection h with hp
          injection hp with hA hB
          subst hA
          subst hB
          refine ⟨rfl, rfl, rfl, rfl, ?_⟩
          intro _
          refine ⟨rfl, rfl, ?_⟩
          intro heof
          simp only [heof, Bool.false_or]
          refine ⟨?_, ?_⟩
          · intro n hn
            subst hn
            simp [RangeBuffer.set_data]
          · intro hn
            subst hn
            simp [RangeBuffer.set_data]
      · split at h
        · cases h
        · split at h
          · injection h with hp
            injection hp with hA hB
            subst hA
            subst hB
            refine ⟨rfl, rfl, rfl, rfl, ?_⟩
            intro hd
            exact absurd rfl hd
          · split at h
            · cases h
            · injection h with hp
              injection hp with hA hB
              subst hA
              subst hB
              refine ⟨rfl, rfl, rfl, rfl, ?_⟩
              intro _
              refine ⟨rfl, rfl, ?_⟩
              intro heof
              simp only [heof, Bool.false_or]
              refine ⟨?_, ?_⟩
              · intro n hn
                subst hn
                simp [RangeBuffer.set_data]
              · intro hn
                subst hn
                simp [RangeBuffer.set_data]
    · simp only [HttpFile.refill_with_size, HttpFile.try_cache_lookup,
        HttpFile.take_prefetch_if_match, hpf, if_neg hm] at h
      split at h
      · split at h
        · injection h with hp
          injection hp with hA hB
          subst hA
          subst hB
          refine ⟨rfl, rfl, rfl, rfl, ?_⟩
          intro hd
          exact absurd rfl hd
        · injection h with hp
          injection hp with hA hB
          subst hA
          subst hB
          refine ⟨rfl, rfl, rfl, rfl, ?_⟩
          intro _
          refine ⟨rfl, rfl, ?_⟩
          intro heof
          simp only [heof, Bool.false_or]
          refine ⟨?_, ?_⟩
          · intro n hn
            subst hn
            simp [RangeBuffer.set_data]
          · intro hn
            subst hn
            simp [RangeBuffer.set_data]
      · split at h
        · cases h
        · split at h
          · injection h with hp
            injection hp with hA hB
            subst hA
            subst hB
            refine ⟨rfl, rfl, rfl, rfl, ?_⟩
            intro hd
            exact absurd rfl hd
          · split at h
            · cases h
            · injection h with hp
              injection hp with hA hB
              subst hA
              subst hB
              refine ⟨rfl, rfl, rfl, rfl, ?_⟩
              intro _
              refine ⟨rfl, rfl, ?_⟩
              intro heof
              simp only [heof, Bool.false_or]
              refine ⟨?_, ?_⟩
              · intro n hn
                subst hn
                simp [RangeBuffer.set_data]
              · intro hn
                subst hn
                simp [RangeBuffer.set_data]

/-- The `file_size` value `refill_buffer` computes in its probe step
(src/http.rs:399-405): the memoized length if present, otherwise the
`.ok().flatten()` of the retrying HEAD's outcome. -/
def probed_size (st : HttpFile) (w : World) : Option Nat :=
  match st.cached_size with
  | none => probe_flatten w.head
  | some sz => sz

lemma refill_buffer_ok (cfg : HttpConfig) (st : HttpFile) (w : World)
    (st' : HttpFile) (w' : World)
    (h : HttpFile.refill_buffer st cfg w = .ok (st', w')) :
    st'.file_offset = st.file_offset ∧
    st'.closed = st.closed ∧
    st'.cached_size = some (probed_size st w) ∧
    (st.cached_size = none → w'.headCalls = w.headCalls + 1) ∧
    (∀ sz, st.cached_size = some sz → w'.headCalls = w.headCalls) ∧
    (st'.buffer.data ≠ [] →
      st'.buffer.buffer_start = st.file_offset ∧
      st'.buffer.buffer_end = st.file_offset + st'.buffer.data.length ∧
      (st.eof_reached = false →
        (∀ n, probed_size st w = some n →
          (st'.eof_reached = true ↔ n ≤ st.file_offset + st'.buffer.data.length)) ∧
        (probed_size st w = none →
          (st'.eof_reached = true ↔
            (st'.buffer.data.length <
              (st.file_offset + (cfg.chunk_size - 1)) - st.file_offset + 1 ∧
             0 < st.buffer.buffer_end))))) := by
  unfold HttpFile.refill_buffer at h
  cases hc : st.cached_size with
  | none =>
    rw [hc] at h
    have hm := refill_with_size_ok cfg { st with cached_size := some (probe_flatten w.head) }
      { w with headCalls := w.headCalls + 1 } (probe_flatten w.head) st' w' h
    have hps : probed_size st w = probe_flatten w.head := by
      unfold probed_size
      rw [hc]
    obtain ⟨m1, m2, m3, m4, m5⟩ := hm
    refine ⟨m1, m2, ?_, ?_, ?_, ?_⟩
    · rw [hps]
      exact m3
    · intro _
      exact m4
    · intro sz hsz
      exact Option.noConfusion hsz
    · intro hd
      obtain ⟨b1, b2, b3⟩ := m5 hd
      refine ⟨b1, b2, ?_⟩
      intro heof
      have hb := b3 heof
      refine ⟨?_, ?_⟩
      · intro n hn
        rw [hps] at hn
        exact hb.1 n hn
      · intro hn
        rw [hps] at hn
        exact hb.2 hn
  | some sz =>
    rw [hc] at h
    have hm := refill_with_size_ok cfg st w sz st' w' h
    have hps : probed_size st w = sz := by
      unfold probed_size
      rw [hc]
    obtain ⟨m1, m2, m3, m4, m5⟩ := hm
    refine ⟨m1, m2, ?_, ?_, ?_, ?_⟩
    · rw [hps, m3, hc]
    · intro hnone
      exact Option.noConfusion hnone
    · intro sz' _
      exact m4
    · intro hd
      obtain ⟨b1, b2, b3⟩ := m5 hd
      refine ⟨b1, b2, ?_⟩
      intro heof
      have hb := b3 heof
      refine ⟨?_, ?_⟩
      · intro n hn
        rw [hps] at hn
        exact hb.1 n hn
      · intro hn
        rw [hps] at hn
        exact hb.2 hn

/-- C2.  Whenever `refill_buffer` succeeds and installs a chunk of
`actual_size > 0` bytes (the chunk starts at `range_start =
file_offset` and ends at `actual_end = range_start + actual_size`),
the EOF flag of the session — entered with the flag clear, as at the
only call site (src/http.rs:481-486) — is set as follows, identically
on the cache-hit and the transport/prefetch paths: if the probed
content length is `Some n`, `eof_reached' ↔ actual_end ≥ n`; if it is
unknown, `eof_reached' ↔ actual_size < expected_size ∧
old_buffer_end > 0`, where `expected_size = range_end − range_start +
1` is the requested chunk length and `old_buffer_end` the buffer end
recorded before the refill. -/
theorem refill_eof_rule (cfg : HttpConfig) (st : HttpFile) (w : World)
    (st' : HttpFile) (w' : World)
    (heof : st.eof_reached = false)
    (h : HttpFile.refill_buffer st cfg w = .ok (st', w'))
    (hd : st'.buffer.data ≠ []) :
    st'.buffer.buffer_start = st.file_offset ∧
    st'.buffer.buffer_end = st.file_offset + st'.buffer.data.length ∧
    st'.cached_size = some (probed_size st w) ∧
    (∀ n, probed_size st w = some n →
      (st'.eof_reached = true ↔ st.file_offset + st'.buffer.data.length ≥ n)) ∧
    (probed_size st w = none →
      (st'.eof_reached = true ↔
        (st'.buffer.data.length <
          (st.file_offset + (cfg.chunk_size - 1)) - st.file_offset + 1 ∧
         0 < st.buffer.buffer_end))) := by
  obtain ⟨-, -, m3, -, -, m6⟩ := refill_buffer_ok cfg st w st' w' h
  obtain ⟨b1, b2, b3⟩ := m6 hd
  obtain ⟨p1, p2⟩ := b3 heof
  exact ⟨b1, b2, m3, p1, p2⟩

/-- A fresh open session at offset 0 with no memoized size. -/
def stC2 : HttpFile := ⟨"u", RangeBuffer.new, 0, false, false, none, none, none⟩

/-- The session after the witness refill: one byte installed at
`[0, 1)`, size probed to 15, EOF still clear. -/
def stC2r : HttpFile := ⟨"u", ⟨[0], 0, 1⟩, 0, false, false, some (some 15), none, none⟩

/-- The environment after the witness refill: one HEAD and one range
call made, the fetched byte cached under the requested range. -/
def wC2r : World :=
  ⟨⟨[(⟨"u", 0, 9⟩, ⟨[0], 1⟩)], [⟨"u", 0, 9⟩], 4, 4096, 1⟩, .ok (some 15), 1,
    fun _ _ _ => .ok [0], 1, fun _ _ => .ok [0]⟩

/-- Witness for the refill EOF rule: a concrete refill that fetches 1
byte of a 15-byte resource installs `[0,1)` and leaves EOF clear
because `actual_end = 1 < 15`. -/
theorem refill_eof_rule_witness :
    HttpFile.refill_buffer stC2 cfg0 w0 = .ok (stC2r, wC2r) ∧
    (stC2r.eof_reached = true ↔ (0 : Nat) + 1 ≥ 15) :=
  ⟨rfl, (refill_eof_rule cfg0 stC2 w0 stC2r wC2r rfl rfl
    (by simp [stC2r])).2.2.2.1 15 rfl⟩

/-- A session primed for a prefetch: resident buffer `[0,10)` nearly
drained (offset 8, trigger 3), EOF clear, no slot. -/
def stC8 : HttpFile :=
  ⟨"u", ⟨[0, 1, 2, 3, 4, 5, 6, 7, 8, 9], 0, 10⟩, 8, false, false, some (some 15), none,
    some 8⟩

/-- Witness for the prefetch-condition theorem: at the concrete
near-drained session all five conditions hold, so a prefetch for the
next range `(10, 19)` is scheduled and recorded in the slot. -/
theorem maybe_prefetch_next_spec_witness :
    (HttpFile.maybe_prefetch_next stC8 cfg0 w0).2.2 = true ∧
    (HttpFile.maybe_prefetch_next stC8 cfg0 w0).1.prefetch = some (10, 19) := by
  have h := maybe_prefetch_next_spec cfg0 stC8 w0
    (HttpFile.maybe_prefetch_next stC8 cfg0 w0).1
    (HttpFile.maybe_prefetch_next stC8 cfg0 w0).2.1
    (HttpFile.maybe_prefetch_next stC8 cfg0 w0).2.2 rfl
  have hsched : (HttpFile.maybe_prefetch_next stC8 cfg0 w0).2.2 = true := by
    apply h.1.mpr
    refine ⟨rfl, rfl, by decide, by decide, ?_, rfl⟩
    intro hcon
    cases hcon
  exact ⟨hsched, h.2 hsched⟩

/-- C10.  If the content-length probe fails, neither `refill_buffer`
nor `size` propagates the error: `size` returns `None` and memoizes
`cached_size = Some(None)`; `refill_buffer` behaves exactly like a
refill of the already-memoized unknown-length session (so the
unknown-length EOF rule applies, see `refill_eof_rule`); once
`cached_size` is set, neither operation issues another HEAD
(`headCalls` is unchanged), and every successful refill leaves
`cached_size` set. -/
theorem probe_failure_handling (cfg : HttpConfig) (st : HttpFile) (w : World) :
    (st.closed = false → st.cached_size = none → ∀ e, w.head = .error e →
      HttpFile.size st w = (none, { st with cached_size := some none },
        { w with headCalls := w.headCalls + 1 })) ∧
    (st.cached_size = none → ∀ e, w.head = .error e →
      HttpFile.refill_buffer st cfg w =
        HttpFile.refill_buffer { st with cached_size := some none } cfg
          { w with headCalls := w.headCalls + 1 }) ∧
    (st.closed = false → ∀ sz, st.cached_size = some sz →
      HttpFile.size st w = (sz, st, w)) ∧
    (∀ sz, st.cached_size = some sz → ∀ st' w',
      HttpFile.refill_buffer st cfg w = .ok (st', w') →
      w'.headCalls = w.headCalls ∧ st'.cached_size = some sz) ∧
    (∀ st' w', HttpFile.refill_buffer st cfg w = .ok (st', w') →
      st'.cached_size ≠ none) := by
  refine ⟨?_, ?_, ?_, ?_, ?_⟩
  · intro hcl hc e he
    have hcl' : ¬(st.closed = true) := by rw [hcl]; exact Bool.false_ne_true
    unfold HttpFile.size
    rw [if_neg hcl', hc, he]
    rfl
  · intro hc e he
    unfold HttpFile.refill_buffer
    rw [hc, he]
    rfl
  · intro hcl sz hc
    have hcl' : ¬(st.closed = true) := by rw [hcl]; exact Bool.false_ne_true
    unfold HttpFile.size
    rw [if_neg hcl', hc]
  · intro sz hc st' w' h
    have hm := refill_buffer_ok cfg st w st' w' h
    have hps : probed_size st w = sz := by
      unfold probed_size
      rw [hc]
    refine ⟨hm.2.2.2.2.1 sz hc, ?_⟩
    rw [hm.2.2.1, hps]
  · intro st' w' h
    have hm := refill_buffer_ok cfg st w st' w' h
    rw [hm.2.2.1]
    intro hx
    cases hx

/-- An environment whose content-length probe fails with a network
error. -/
def wErr : World :=
  ⟨RangeCache.new 4 4096, .error (FsError.Network ("dns failure")), 0,
    fun _ _ _ => .ok [0], 0, fun _ _ => .ok [0]⟩

/-- Witness for the probe-failure theorem: on a fresh session whose
HEAD fails, `size` returns `None` and memoizes "probed, unknown". -/
theorem probe_failure_handling_witness :
    HttpFile.size stC2 wErr = (none, { stC2 with cached_size := some none },
      { wErr with headCalls := 1 }) :=
  (probe_failure_handling cfg0 stC2 wErr).1 rfl rfl (FsError.Network ("dns failure")) rfl

/-! ### The read loop -/

lemma rangeBuffer_read_length (b : RangeBuffer) (outLen off : Nat) :
    (b.read outLen off).length ≤ outLen := by
  unfold RangeBuffer.read
  split
  · simp only [List.length_take, List.length_drop]
    omega
  · simp

lemma read_loop_ok (cfg : HttpConfig) (bufLen : Nat) :
    ∀ (st : HttpFile) (w : World) (acc : List Nat) (attempts : Nat),
    ∀ (res : List Nat × HttpFile × World),
    HttpFile.read_loop cfg bufLen st w acc attempts = .ok res →
    acc.length ≤ bufLen →
    res.1.length ≤ bufLen ∧ acc.length ≤ res.1.length ∧
    (res.1.length = acc.length →
      res.1 = acc ∧ res.2.1.file_offset = st.file_offset ∧
      (acc.length = bufLen ∨
        (res.2.1.eof_reached = true ∧
         res.2.1.buffer.contains res.2.1.file_offset = false))) := by
  intro st w acc attempts
  induction st, w, acc, attempts using HttpFile.read_loop.induct cfg bufLen with
  | case1 st w acc attempts h1 h2 h3 =>
    intro res hres hlen
    rw [HttpFile.read_loop] at hres
    simp only [h1, h2, h3, ite_true, ite_false, dite_true, dite_false] at hres
    exact Except.noConfusion hres
  | case2 st w acc attempts h1 h2 h3 bytes st2 h4 =>
    intro res hres hlen
    rw [HttpFile.read_loop] at hres
    simp only [h1, h2, h3, h4, ite_true, ite_false, dite_true, dite_false] at hres
    have hres' := Except.ok.inj hres
    subst hres'
    have hrl := rangeBuffer_read_length st.buffer (bufLen - acc.length) st.file_offset
    have hbe : bytes.length = (st.buffer.read (bufLen - acc.length) st.file_offset).length :=
      rfl
    refine ⟨?_, ?_, ?_⟩
    · simp only [List.length_append]
      omega
    · simp only [List.length_append]
      omega
    · intro hzero
      exfalso
      simp only [List.length_append] at hzero
      omega
  | case3 st w acc attempts h1 h2 h3 bytes st2 h4 ih =>
    intro res hres hlen
    rw [HttpFile.read_loop] at hres
    simp only [h1, h2, h3, h4, ite_true, ite_false, dite_true, dite_false] at hres
    have hrl := rangeBuffer_read_length st.buffer (bufLen - acc.length) st.file_offset
    have hbe : bytes.length = (st.buffer.read (bufLen - acc.length) st.file_offset).length :=
      rfl
    have hstep := ih res hres (by simp only [List.length_append]; omega)
    refine ⟨hstep.1, ?_, ?_⟩
    · have := hstep.2.1
      simp only [List.length_append] at this
      omega
    · intro hzero
      exfalso
      have := hstep.2.1
      simp only [List.length_append] at this
      omega
  | case4 st w acc attempts h1 h2 h3 =>
    intro res hres hlen
    rw [HttpFile.read_loop] at hres
    simp only [h1, h2, h3, ite_true, ite_false, dite_true, dite_false] at hres
    have hres' := Except.ok.inj hres
    subst hres'
    refine ⟨hlen, le_rfl, ?_⟩
    intro _
    refine ⟨rfl, rfl, Or.inr ⟨h3, ?_⟩⟩
    cases hv : st.buffer.contains st.file_offset
    · rfl
    · exact absurd hv h2
  | case5 st w acc attempts h1 h2 h3 e herr =>
    intro res hres hlen
    rw [HttpFile.read_loop] at hres
    simp only [h1, h2, h3, herr, ite_true, ite_false, dite_true, dite_false] at hres
    exact Except.noConfusion hres
  | case6 st w acc attempts h1 h2 h3 st' w' hok h4 =>
    intro res hres hlen
    rw [HttpFile.read_loop] at hres
    simp only [h1, h2, h3, hok, h4, ite_true, ite_false, dite_true, dite_false] at hres
    have hres' := Except.ok.inj hres
    subst hres'
    obtain ⟨hoff, -, -, -, -, -⟩ := refill_buffer_ok cfg st w st' w' hok
    refine ⟨hlen, le_rfl, ?_⟩
    intro _
    rw [Bool.and_eq_true, Bool.not_eq_true'] at h4
    exact ⟨rfl, hoff, Or.inr ⟨h4.1, h4.2⟩⟩
  | case7 st w acc attempts h1 h2 h3 st' w' hok h4 h5 =>
    intro res hres hlen
    rw [HttpFile.read_loop] at hres
    simp only [h1, h2, h3, hok, h4, h5, ite_true, ite_false, dite_true, dite_false] at hres
    exact Except.noConfusion hres
  | case8 st w acc attempts h1 h2 h3 st' w' hok h4 h5 ih =>
    intro res hres hlen
    rw [HttpFile.read_loop] at hres
    simp only [h1, h2, h3, hok, h4, h5, ite_true, ite_false, dite_true, dite_false] at hres
    obtain ⟨hoff, -, -, -, -, -⟩ := refill_buffer_ok cfg st w st' w' hok
    have hstep := ih res hres hlen
    refine ⟨hstep.1, hstep.2.1, ?_⟩
    intro hzero
    obtain ⟨ha, hb, hc⟩ := hstep.2.2 hzero
    exact ⟨ha, hb.trans hoff, hc⟩
  | case9 st w acc attempts h1 =>
    intro res hres hlen
    rw [HttpFile.read_loop] at hres
    simp only [h1, ite_true, ite_false, dite_true, dite_false] at hres
    have hres' := Except.ok.inj hres
    subst hres'
    refine ⟨hlen, le_rfl, ?_⟩
    intro _
    exact ⟨rfl, rfl, Or.inl (by omega)⟩

/-- C1.  On a non-closed session, a successful `read` into a buffer of
length `bufLen` returns `n` bytes with `n ≤ bufLen`; `n = 0` when the
output buffer is empty; a successful `n = 0` with a nonempty output
buffer happens exactly at end of file — the EOF flag is set, the
resident buffer holds nothing at the (unmoved) offset — and
conversely a session already at end of file at its current position
reads 0 bytes successfully. -/
theorem read_contract (cfg : HttpConfig) (st : HttpFile) (w : World) (bufLen : Nat)
    (hopen : st.closed = false) :
    (∀ bytes st' w', HttpFile.read st cfg w bufLen = .ok (bytes, st', w') →
      bytes.length ≤ bufLen ∧
      (bufLen = 0 → bytes.length = 0) ∧
      (bytes.length = 0 → 0 < bufLen →
        st'.eof_reached = true ∧ st'.buffer.contains st'.file_offset = false ∧
        st'.file_offset = st.file_offset)) ∧
    (st.eof_reached = true → st.buffer.contains st.file_offset = false → 0 < bufLen →
      HttpFile.read st cfg w bufLen = .ok ([], st, w)) := by
  have hopen' : ¬(st.closed = true) := by rw [hopen]; exact Bool.false_ne_true
  constructor
  · intro bytes st' w' hres
    by_cases hbl : bufLen = 0
    · subst hbl
      unfold HttpFile.read at hres
      rw [if_pos rfl] at hres
      have hp := Except.ok.inj hres
      have hby : ([] : List Nat) = bytes := congrArg Prod.fst hp
      refine ⟨?_, ?_, ?_⟩
      · rw [← hby]
        exact le_rfl
      · intro _
        rw [← hby]
        rfl
      · intro _ hcon
        exact absurd hcon (by omega)
    · unfold HttpFile.read at hres
      rw [if_neg hbl, if_neg hopen'] at hres
      cases hloop : HttpFile.read_loop cfg bufLen st w [] 0 with
      | error e =>
        rw [hloop] at hres
        simp at hres
      | ok r =>
        obtain ⟨acc, st1, w1⟩ := r
        rw [hloop] at hres
        have hinv := read_loop_ok cfg bufLen st w [] 0 (acc, st1, w1) hloop
          (by simp)
        by_cases hpos : 0 < acc.length
        · simp only [hpos, ite_true] at hres
          split at hres
          · have hp := Except.ok.inj hres
            have hby : acc = bytes := congrArg Prod.fst hp
            refine ⟨?_, ?_, ?_⟩
            · rw [← hby]
              exact hinv.1
            · intro hcon
              exact absurd hcon hbl
            · intro hz _
              rw [← hby] at hz
              omega
          · have hp := Except.ok.inj hres
            have hby : acc = bytes := congrArg Prod.fst hp
            refine ⟨?_, ?_, ?_⟩
            · rw [← hby]
              exact hinv.1
            · intro hcon
              exact absurd hcon hbl
            · intro hz _
              rw [← hby] at hz
              omega
        · simp only [hpos, ite_false] at hres
          have hp := Except.ok.inj hres
          have hby : acc = bytes := congrArg Prod.fst hp
          have hst : st1 = st' := congrArg (fun q => q.2.1) hp
          refine ⟨?_, ?_, ?_⟩
          · rw [← hby]
            exact hinv.1
          · intro hcon
            exact absurd hcon hbl
          · intro hz hb
            have hz' : acc.length = ([] : List Nat).length := by
              rw [hby, hz]
              rfl
            obtain ⟨-, hoff, hdis⟩ := hinv.2.2 hz'
            rcases hdis with hd | hd
            · exfalso
              simp at hd
              omega
            · rw [← hst]
              exact ⟨hd.1, hd.2, hoff⟩
  · intro heof hcont hb
    unfold HttpFile.read
    rw [if_neg (by omega), if_neg hopen']
    have hloop : HttpFile.read_loop cfg bufLen st w [] 0 = .ok ([], st, w) := by
      rw [HttpFile.read_loop]
      simp only [List.length_nil, hb, heof, hcont, Bool.false_eq_true, ite_true, ite_false,
        dite_true, dite_false]
    rw [hloop]
    rfl

/-- A session already at end of file: flag set, empty resident
buffer. -/
def stEof : HttpFile :=
  ⟨"u", RangeBuffer.new, 3, true, false, some (some 3), none, some 3⟩

/-- Witness for the read contract: at end of file a 1-byte read
succeeds with 0 bytes and changes nothing. -/
theorem read_contract_witness :
    HttpFile.read stEof cfg0 w0 1 = .ok ([], stEof, w0) :=
  (read_contract cfg0 stEof w0 1 rfl).2 rfl rfl (by omega)
